import Mathlib

/-!
# Verification of the speedscope tree-summary engine

A shallow embedding of `src/lib/tree-summary.ts`: the call-tree renderer
(`buildTreeLines`), the bottoms-up aggregator (`buildBottomsUpEntries` /
`walkSubtree`), the report composers (`generateTreeSummary`,
`generateAllProfilesSummary`) and the clipboard delivery wrapper
(`copyToClipboard`).  Weights are modelled as exact rationals, JavaScript's
stable `Array.prototype.sort` as `List.mergeSort`, and the insertion-ordered
JavaScript `Map` as an association list updated in place.
-/

/-- Modelled from the spec: `Frame` from the missing `profile` module — the
canonical identity of a function/call site: name plus optional file, line and
column.  The upstream model guarantees one canonical `Frame` per distinct
function, so structural equality coincides with the reference identity the
TypeScript `Map` keys on. -/
structure Frame where
  name : String
  file : Option String := none
  line : Option Nat := none
  col : Option Nat := none
deriving DecidableEq, Repr

/-- Modelled from the spec: `CallTreeNode` from the missing `profile` module —
a node of the weighted call tree carrying a `Frame`, a total weight (own work
plus descendants), a self weight (own work only), an ordered list of children,
and a flag distinguishing the synthetic root (`isRoot()` in the source). -/
inductive CallTreeNode : Type where
  | mk (root : Bool) (frame : Frame) (totalWeight selfWeight : ℚ)
       (children : List CallTreeNode) : CallTreeNode

/-- `node.isRoot()` accessor. -/
def CallTreeNode.isRoot : CallTreeNode → Bool
  | .mk r _ _ _ _ => r

/-- `node.frame` accessor. -/
def CallTreeNode.frame : CallTreeNode → Frame
  | .mk _ f _ _ _ => f

/-- `node.getTotalWeight()` accessor. -/
def CallTreeNode.getTotalWeight : CallTreeNode → ℚ
  | .mk _ _ t _ _ => t

/-- `node.getSelfWeight()` accessor. -/
def CallTreeNode.getSelfWeight : CallTreeNode → ℚ
  | .mk _ _ _ s _ => s

/-- `node.children` accessor. -/
def CallTreeNode.children : CallTreeNode → List CallTreeNode
  | .mk _ _ _ _ cs => cs

theorem sizeOf_lt_of_mem_node {c : CallTreeNode} {r f t s} {cs : List CallTreeNode}
    (h : c ∈ cs) : sizeOf c < sizeOf (CallTreeNode.mk r f t s cs) := by
  have := List.sizeOf_lt_of_mem h
  simp only [CallTreeNode.mk.sizeOf_spec]
  omega

theorem sizeOf_children_lt (n : CallTreeNode) : sizeOf n.children < sizeOf n := by
  cases n with
  | mk r f t s cs =>
      simp only [CallTreeNode.children, CallTreeNode.mk.sizeOf_spec]
      omega

/-- A permutation of a list of nodes preserves its `sizeOf`. -/
theorem List.Perm.sizeOf_eq_of_nodes {l₁ l₂ : List CallTreeNode} (h : l₁.Perm l₂) :
    sizeOf l₁ = sizeOf l₂ := by
  induction h with
  | nil => rfl
  | cons x _ ih => simp only [List.cons.sizeOf_spec]; omega
  | swap x y l => simp only [List.cons.sizeOf_spec]; omega
  | trans _ _ ih₁ ih₂ => omega

/-- A sublist of a list of nodes has a `sizeOf` that is no larger. -/
theorem List.Sublist.sizeOf_le_of_nodes {l₁ l₂ : List CallTreeNode} (h : l₁.Sublist l₂) :
    sizeOf l₁ ≤ sizeOf l₂ := by
  induction h with
  | slnil => exact le_refl _
  | cons a _ ih => simp only [List.cons.sizeOf_spec]; omega
  | cons₂ a _ ih => simp only [List.cons.sizeOf_spec]; omega

/-- Strong induction over the nested inductive `CallTreeNode`. -/
theorem CallTreeNode.ind (P : CallTreeNode → Prop)
    (h : ∀ r f t s cs, (∀ c ∈ cs, P c) → P (.mk r f t s cs)) :
    ∀ n, P n
  | .mk r f t s cs => h r f t s cs (fun c hc => CallTreeNode.ind P h c)
termination_by n => sizeOf n
decreasing_by exact sizeOf_lt_of_mem_node hc

/-- `MIN_WEIGHT_THRESHOLD` from tree-summary.ts: minimum threshold as a
fraction (1%). -/
def MIN_WEIGHT_THRESHOLD : ℚ := 1 / 100

/-- The JavaScript `[...children].filter(c => c.getTotalWeight() >= minWeight)
.sort((a, b) => b.getTotalWeight() - a.getTotalWeight())` step shared by both
branches of `buildTreeLines`: keep children at or above the threshold, then
stably sort them by total weight descending. -/
def visibleChildren (cs : List CallTreeNode) (minWeight : ℚ) : List CallTreeNode :=
  (cs.filter (fun c => decide (minWeight ≤ c.getTotalWeight))).mergeSort
    (fun a b => decide (b.getTotalWeight ≤ a.getTotalWeight))

theorem sizeOf_visibleChildren_le (cs : List CallTreeNode) (mw : ℚ) :
    sizeOf (visibleChildren cs mw) ≤ sizeOf cs :=
  le_trans (le_of_eq (List.Perm.sizeOf_eq_of_nodes (List.mergeSort_perm _ _)))
    (List.Sublist.sizeOf_le_of_nodes (List.filter_sublist cs))

theorem mem_visibleChildren {c : CallTreeNode} {cs : List CallTreeNode} {mw : ℚ}
    (h : c ∈ visibleChildren cs mw) : c ∈ cs := by
  have := (List.mem_mergeSort).mp h
  exact (List.mem_filter.mp this).1

/-- `TreeLine` from tree-summary.ts. -/
structure TreeLine where
  indent : String
  name : String
  file : Option String
  line : Option Nat
  col : Option Nat
  totalWeight : ℚ
  selfWeight : ℚ
  totalPercent : ℚ
  selfPercent : ℚ
deriving DecidableEq, Repr

mutual

/-- `buildTreeLines` from tree-summary.ts: depth-first walk pushing a
`TreeLine` for every non-root node whose parent kept it, skipping the
synthetic root and recursing directly into its (filtered, sorted) children. -/
def buildTreeLines (node : CallTreeNode) (totalWeight minWeight : ℚ)
    (pfx : String) (isLast isRoot : Bool) : List TreeLine :=
  if node.isRoot then
    buildTreeLinesForEach (visibleChildren node.children minWeight)
      totalWeight minWeight "" true
  else
    let connector := if isRoot then "" else if isLast then "└─ " else "├─ "
    let indent := pfx ++ connector
    let childPfx := pfx ++ (if isRoot then "" else if isLast then "   " else "│  ")
    { indent := indent
      name := node.frame.name
      file := node.frame.file
      line := node.frame.line
      col := node.frame.col
      totalWeight := node.getTotalWeight
      selfWeight := node.getSelfWeight
      totalPercent := node.getTotalWeight / totalWeight * 100
      selfPercent := node.getSelfWeight / totalWeight * 100 }
    :: buildTreeLinesForEach (visibleChildren node.children minWeight)
        totalWeight minWeight childPfx false
termination_by sizeOf node
decreasing_by
  · exact lt_of_le_of_lt (sizeOf_visibleChildren_le _ _) (sizeOf_children_lt node)
  · exact lt_of_le_of_lt (sizeOf_visibleChildren_le _ _) (sizeOf_children_lt node)

/-- The `children.forEach((child, index) => buildTreeLines(child, ...))` loop
of `buildTreeLines`: `index === children.length - 1` becomes emptiness of the
remaining list. -/
def buildTreeLinesForEach (cs : List CallTreeNode) (totalWeight minWeight : ℚ)
    (pfx : String) (topLevel : Bool) : List TreeLine :=
  match cs with
  | [] => []
  | c :: rest =>
      buildTreeLines c totalWeight minWeight pfx rest.isEmpty topLevel
        ++ buildTreeLinesForEach rest totalWeight minWeight pfx topLevel
termination_by sizeOf cs
decreasing_by
  · simp only [List.cons.sizeOf_spec]; omega
  · simp only [List.cons.sizeOf_spec]; omega

end

/-- `BottomsUpEntry` from tree-summary.ts. -/
structure BottomsUpEntry where
  frame : Frame
  totalWeight : ℚ
  selfWeight : ℚ
  totalPercent : ℚ
  selfPercent : ℚ
deriving DecidableEq, Repr

/-- One binding of the `frameWeights` map of `buildBottomsUpEntries`:
a frame with its aggregated total and self weight. -/
structure FrameWeight where
  frame : Frame
  totalWeight : ℚ
  selfWeight : ℚ
deriving DecidableEq, Repr

/-- The `frameWeights.get / set` step of `walkSubtree`: if the frame is
already present add the node's weights onto the existing binding, otherwise
append a fresh binding (JavaScript `Map` preserves insertion order). -/
def setFrameWeight (m : List FrameWeight) (f : Frame) (tw sw : ℚ) : List FrameWeight :=
  match m with
  | [] => [⟨f, tw, sw⟩]
  | e :: rest =>
      if e.frame = f then ⟨e.frame, e.totalWeight + tw, e.selfWeight + sw⟩ :: rest
      else e :: setFrameWeight rest f tw sw

mutual

/-- `walkSubtree` from `buildBottomsUpEntries` in tree-summary.ts: walk the
subtree accumulating per-frame weights; the synthetic root itself contributes
nothing, only its children are processed. -/
def walkSubtree (n : CallTreeNode) (fw : List FrameWeight) : List FrameWeight :=
  if n.isRoot then
    walkSubtreeForEach n.children fw
  else
    walkSubtreeForEach n.children
      (setFrameWeight fw n.frame n.getTotalWeight n.getSelfWeight)
termination_by sizeOf n
decreasing_by
  · exact sizeOf_children_lt n
  · exact sizeOf_children_lt n

/-- The `for (const child of n.children) walkSubtree(child)` loop. -/
def walkSubtreeForEach (cs : List CallTreeNode) (fw : List FrameWeight) :
    List FrameWeight :=
  match cs with
  | [] => fw
  | c :: rest => walkSubtreeForEach rest (walkSubtree c fw)
termination_by sizeOf cs
decreasing_by
  · simp only [List.cons.sizeOf_spec]; omega
  · simp only [List.cons.sizeOf_spec]; omega

end

/-- `buildBottomsUpEntries` from tree-summary.ts: walk the subtree, keep the
aggregated frames whose self weight reaches `minSelfWeight`, attach
percentages, and stably sort by self weight descending. -/
def buildBottomsUpEntries (node : CallTreeNode) (totalWeight minSelfWeight : ℚ) :
    List BottomsUpEntry :=
  let frameWeights := walkSubtree node []
  let entries := frameWeights.filterMap (fun w =>
    if minSelfWeight ≤ w.selfWeight then
      some { frame := w.frame
             totalWeight := w.totalWeight
             selfWeight := w.selfWeight
             totalPercent := w.totalWeight / totalWeight * 100
             selfPercent := w.selfWeight / totalWeight * 100 }
    else none)
  entries.mergeSort (fun a b => decide (b.selfWeight ≤ a.selfWeight))

/-- Modelled from the spec: `formatPercent` from the missing `utils` module;
per the report grammar and worked example of the spec it renders a percentage
with one decimal digit followed by a percent sign (`100.0%`, `90.0%`). -/
def formatPercent (p : ℚ) : String :=
  let tenths : ℤ := ⌊p * 10 + 1 / 2⌋
  toString (tenths / 10) ++ "." ++ toString (tenths % 10) ++ "%"

/-- The location-suffix computation repeated throughout tree-summary.ts:
`file`, then `file:line`, then `file:line:col`, each part only when present. -/
def locationOf (file : Option String) (line col : Option Nat) : Option String :=
  match file with
  | none => none
  | some f =>
      some (f ++ (match line with
        | none => ""
        | some ln => ":" ++ toString ln ++ (match col with
            | none => ""
            | some c => ":" ++ toString c)))

/-- The `name += \x7b(location)\x7d` step shared by the tree-line and
bottoms-up renderers: append the parenthesised location when a file is known. -/
def nameWithLocation (name : String) (file : Option String) (line col : Option Nat) :
    String :=
  match locationOf file line col with
  | none => name
  | some loc => name ++ " (" ++ loc ++ ")"

/-- `formatTreeLine` from tree-summary.ts: a name row and a stats row, the
stats right-padded by the non-negative length difference. -/
def formatTreeLine (line : TreeLine) (formatValue : ℚ → String) : List String :=
  let stats := "[" ++ formatValue line.totalWeight ++ " ("
    ++ formatPercent line.totalPercent ++ "), self: "
    ++ formatValue line.selfWeight ++ " (" ++ formatPercent line.selfPercent ++ ")]"
  let name := nameWithLocation line.name line.file line.line line.col
  [line.indent ++ name,
   line.indent ++ String.mk (List.replicate (name.length - stats.length) ' ') ++ stats]

/-- The three output rows pushed per bottoms-up entry by both report
generators: located name, self-first stats, blank separator. -/
def bottomsUpEntryLines (entry : BottomsUpEntry) (formatValue : ℚ → String) :
    List String :=
  let name := nameWithLocation entry.frame.name entry.frame.file
    entry.frame.line entry.frame.col
  let stats := "[self: " ++ formatValue entry.selfWeight ++ " ("
    ++ formatPercent entry.selfPercent ++ "), total: "
    ++ formatValue entry.totalWeight ++ " (" ++ formatPercent entry.totalPercent ++ ")]"
  [name, stats, ""]

/-- JavaScript `output.join('\n')`. -/
def joinLines : List String → String
  | [] => ""
  | [s] => s
  | s :: rest => s ++ "\n" ++ joinLines rest

/-- `'='.repeat(60)`. -/
def eqSep : String := String.mk (List.replicate 60 '=')

/-- `'-'.repeat(60)`. -/
def dashSep : String := String.mk (List.replicate 60 '-')

/-- `TreeSummaryOptions` from tree-summary.ts. -/
structure TreeSummaryOptions where
  node : CallTreeNode
  totalWeight : ℚ
  formatValue : ℚ → String

/-- The `Selected:` / `Location:` / `Total:` / `Self:` block of
`generateTreeSummary`, emitted only when the start node is not the root. -/
def selectedNodeLines (node : CallTreeNode) (totalWeight : ℚ)
    (formatValue : ℚ → String) : List String :=
  if node.isRoot then []
  else
    ["Selected: " ++ node.frame.name]
    ++ (match locationOf node.frame.file node.frame.line node.frame.col with
        | none => []
        | some loc => ["Location: " ++ loc])
    ++ ["Total: " ++ formatValue node.getTotalWeight ++ " ("
          ++ formatPercent (node.getTotalWeight / totalWeight * 100) ++ ")",
        "Self: " ++ formatValue node.getSelfWeight ++ " ("
          ++ formatPercent (node.getSelfWeight / totalWeight * 100) ++ ")",
        ""]

/-- `generateTreeSummary` from tree-summary.ts: the single-subtree report.
The bottoms-up section is thresholded at 1% of the profile total, the
call-tree section at 1% of the selected node's own weight; when both section
bodies are empty the report degenerates to the `No data available` sentinel. -/
def generateTreeSummary (options : TreeSummaryOptions) : String :=
  let node := options.node
  let totalWeight := options.totalWeight
  let formatValue := options.formatValue
  let nodeWeight := if node.isRoot then totalWeight else node.getTotalWeight
  let bottomsUpMinSelfWeight := totalWeight * MIN_WEIGHT_THRESHOLD
  let bottomsUpEntries := buildBottomsUpEntries node totalWeight bottomsUpMinSelfWeight
  let bottomsUpLines :=
    if bottomsUpEntries.length > 0 then
      ["Bottoms Up (by self time, >=1% of total):", dashSep, ""]
      ++ (bottomsUpEntries.map (fun e => bottomsUpEntryLines e formatValue)).flatten
    else []
  let callTreeMinWeight := nodeWeight * MIN_WEIGHT_THRESHOLD
  let callTreeLines := buildTreeLines node totalWeight callTreeMinWeight "" true true
  let callTreeTextLines :=
    if callTreeLines.length > 0 then
      ["Call Tree (callees, >=1% of selection):", dashSep, ""]
      ++ (callTreeLines.map (fun l => formatTreeLine l formatValue)).flatten
      ++ [""]
    else []
  if bottomsUpEntries.length = 0 ∧ callTreeLines.length = 0 then
    "No data available"
  else
    joinLines (["Performance Summary", eqSep, ""]
      ++ selectedNodeLines node totalWeight formatValue
      ++ bottomsUpLines
      ++ callTreeTextLines
      ++ [dashSep, "Total weight of profile: " ++ formatValue totalWeight])

/-- Modelled from the spec: `Profile` from the missing `profile` module — it
owns one grouped call-tree root, the total (non-idle) weight used as the
normalization denominator, and the caller-supplied value formatter. -/
structure Profile where
  groupedCalltreeRoot : CallTreeNode
  totalNonIdleWeight : ℚ
  formatValue : ℚ → String

/-- `profile.getGroupedCalltreeRoot()` accessor. -/
def Profile.getGroupedCalltreeRoot (p : Profile) : CallTreeNode :=
  p.groupedCalltreeRoot

/-- `profile.getTotalNonIdleWeight()` accessor. -/
def Profile.getTotalNonIdleWeight (p : Profile) : ℚ :=
  p.totalNonIdleWeight

/-- `ProfileInfo` from tree-summary.ts. -/
structure ProfileInfo where
  name : String
  profile : Profile

/-- The body of the `for (let i = 0; ...)` loop of
`generateAllProfilesSummary`: the per-profile delimiting sub-header (only when
there is more than one profile) followed by that profile's bottoms-up and
call-tree sections, both thresholded at 1% of that profile's own total. -/
def profileBlockLines (count i : Nat) (info : ProfileInfo) : List String :=
  let root := info.profile.getGroupedCalltreeRoot
  let totalWeight := info.profile.getTotalNonIdleWeight
  let formatValue := info.profile.formatValue
  let headerLines :=
    if count > 1 then
      [eqSep,
       "Profile " ++ toString (i + 1) ++ "/" ++ toString count ++ ": " ++ info.name,
       "Total: " ++ formatValue totalWeight,
       eqSep,
       ""]
    else []
  let bottomsUpMinSelfWeight := totalWeight * MIN_WEIGHT_THRESHOLD
  let bottomsUpEntries := buildBottomsUpEntries root totalWeight bottomsUpMinSelfWeight
  let bottomsUpLines :=
    if bottomsUpEntries.length > 0 then
      ["Bottoms Up (by self time, >=1% of total):", dashSep, ""]
      ++ (bottomsUpEntries.map (fun e => bottomsUpEntryLines e formatValue)).flatten
    else []
  let callTreeMinWeight := totalWeight * MIN_WEIGHT_THRESHOLD
  let callTreeLines := buildTreeLines root totalWeight callTreeMinWeight "" true true
  let callTreeTextLines :=
    if callTreeLines.length > 0 then
      ["Call Tree (>=1% of total):", dashSep, ""]
      ++ (callTreeLines.map (fun l => formatTreeLine l formatValue)).flatten
      ++ [""]
    else []
  headerLines ++ bottomsUpLines ++ callTreeTextLines

/-- The `for (let i = 0; i < profiles.length; i++)` loop of
`generateAllProfilesSummary`. -/
def profilesLoop (count i : Nat) : List ProfileInfo → List String
  | [] => []
  | info :: rest => profileBlockLines count i info ++ profilesLoop count (i + 1) rest

/-- The full line list of `generateAllProfilesSummary`: combined header with
the profile count, then every profile's block in input order. -/
def allProfilesLines (profiles : List ProfileInfo) : List String :=
  ["Performance Profile Summary", eqSep, "",
   "Total profiles: " ++ toString profiles.length, ""]
  ++ profilesLoop profiles.length 0 profiles

/-- `generateAllProfilesSummary` from tree-summary.ts. -/
def generateAllProfilesSummary (profiles : List ProfileInfo) : String :=
  joinLines (allProfilesLines profiles)

/-- `copyToClipboard` from tree-summary.ts.  The external
`navigator.clipboard.writeText` delivery call is modelled as a caller-supplied
fallible operation; the `try/catch` turns its outcome into a boolean. -/
def copyToClipboard (writeText : String → Except String Unit) (text : String) :
    Bool :=
  match writeText text with
  | .ok _ => true
  | .error _ => false

/-! ## Analysis infrastructure: the nodes of a subtree -/

mutual

/-- All nodes of the subtree rooted at `n`, in depth-first pre-order. -/
def allNodes : CallTreeNode → List CallTreeNode
  | .mk r f t s cs => .mk r f t s cs :: allNodesForEach cs
termination_by n => sizeOf n
decreasing_by simp only [CallTreeNode.mk.sizeOf_spec]; omega

/-- All nodes of the subtrees of a list of nodes, in order. -/
def allNodesForEach : List CallTreeNode → List CallTreeNode
  | [] => []
  | c :: rest => allNodes c ++ allNodesForEach rest
termination_by l => sizeOf l
decreasing_by
  · simp only [List.cons.sizeOf_spec]; omega
  · simp only [List.cons.sizeOf_spec]; omega

end

/-- The non-root nodes of the subtree rooted at `n`, in the order the
bottoms-up walk visits them. -/
def nonRootNodes (n : CallTreeNode) : List CallTreeNode :=
  (allNodes n).filter (fun m => !m.isRoot)

theorem allNodes_def (r f t s cs) :
    allNodes (.mk r f t s cs) = .mk r f t s cs :: allNodesForEach cs := by
  rw [allNodes]

theorem mem_allNodes_self (n : CallTreeNode) : n ∈ allNodes n := by
  cases n with
  | mk r f t s cs => rw [allNodes_def]; exact List.mem_cons_self _ _

theorem mem_allNodesForEach {m c : CallTreeNode} {cs : List CallTreeNode}
    (hc : c ∈ cs) (hm : m ∈ allNodes c) : m ∈ allNodesForEach cs := by
  induction cs with
  | nil => cases hc
  | cons d rest ih =>
      rw [allNodesForEach]
      rcases List.mem_cons.mp hc with h | h
      · subst h; exact List.mem_append_left _ hm
      · exact List.mem_append_right _ (ih h)

theorem mem_allNodes_of_child {m c : CallTreeNode} {r f t s} {cs : List CallTreeNode}
    (hc : c ∈ cs) (hm : m ∈ allNodes c) : m ∈ allNodes (.mk r f t s cs) := by
  rw [allNodes_def]
  exact List.mem_cons_of_mem _ (mem_allNodesForEach hc hm)

/-- The weight model assumed by the aggregation-correctness invariant: at
every node of the subtree the total weight is the self weight plus the
children's total weights, self weights are non-negative, and the synthetic
root carries no self weight. -/
def WeightOk (n : CallTreeNode) : Prop :=
  ∀ m ∈ allNodes n,
    m.getTotalWeight = m.getSelfWeight + (m.children.map CallTreeNode.getTotalWeight).sum
    ∧ 0 ≤ m.getSelfWeight
    ∧ (m.isRoot = true → m.getSelfWeight = 0)

theorem weightOk_of_child {r f t s} {cs : List CallTreeNode}
    (h : WeightOk (.mk r f t s cs)) {c : CallTreeNode} (hc : c ∈ cs) : WeightOk c :=
  fun m hm => h m (mem_allNodes_of_child hc hm)

/-! ## The bottoms-up walk as a fold over the non-root nodes -/

/-- One step of the aggregation: fold a node's weights into the map. -/
def applyNode (m : List FrameWeight) (c : CallTreeNode) : List FrameWeight :=
  setFrameWeight m c.frame c.getTotalWeight c.getSelfWeight

theorem nonRootNodes_cons (r f t s cs) :
    nonRootNodes (.mk r f t s cs)
      = (if r then [] else [CallTreeNode.mk r f t s cs])
        ++ ((allNodesForEach cs).filter (fun m => !m.isRoot)) := by
  rw [nonRootNodes, allNodes_def, List.filter_cons]
  cases r with
  | true => simp [CallTreeNode.isRoot]
  | false => simp [CallTreeNode.isRoot]

theorem filter_allNodesForEach (cs : List CallTreeNode) :
    (allNodesForEach cs).filter (fun m => !m.isRoot)
      = (cs.map nonRootNodes).flatten := by
  induction cs with
  | nil => rw [allNodesForEach]; rfl
  | cons c rest ih =>
      rw [allNodesForEach, List.filter_append, List.map_cons, List.flatten_cons, ih,
        nonRootNodes]

theorem walkSubtreeForEach_eq_foldl (cs : List CallTreeNode)
    (h : ∀ c ∈ cs, ∀ fw, walkSubtree c fw = (nonRootNodes c).foldl applyNode fw) :
    ∀ fw, walkSubtreeForEach cs fw
      = ((allNodesForEach cs).filter (fun m => !m.isRoot)).foldl applyNode fw := by
  induction cs with
  | nil => intro fw; rw [walkSubtreeForEach, allNodesForEach]; rfl
  | cons c rest ih =>
      intro fw
      rw [walkSubtreeForEach, allNodesForEach, List.filter_append, List.foldl_append,
        ← nonRootNodes, h c (List.mem_cons_self _ _) fw]
      exact ih (fun d hd => h d (List.mem_cons_of_mem _ hd)) _

theorem walkSubtree_eq_foldl (n : CallTreeNode) :
    ∀ fw, walkSubtree n fw = (nonRootNodes n).foldl applyNode fw := by
  induction n using CallTreeNode.ind with
  | _ r f t s cs ih =>
      intro fw
      rw [walkSubtree, nonRootNodes_cons, List.foldl_append]
      have hfor := walkSubtreeForEach_eq_foldl cs (fun c hc => ih c hc)
      cases r with
      | true =>
          simp only [CallTreeNode.isRoot, CallTreeNode.children, if_pos rfl,
            List.foldl_nil]
          exact hfor fw
      | false =>
          simp only [CallTreeNode.isRoot, CallTreeNode.children,
            if_neg (by simp : ¬(false = true)), List.foldl_cons, List.foldl_nil]
          exact hfor _

/-! ## Sum of self weights through the aggregation -/

/-- Sum of the self weights recorded in the map. -/
def selfSumFW (m : List FrameWeight) : ℚ :=
  (m.map (fun e => e.selfWeight)).sum

theorem selfSumFW_set (m : List FrameWeight) (f : Frame) (tw sw : ℚ) :
    selfSumFW (setFrameWeight m f tw sw) = selfSumFW m + sw := by
  induction m with
  | nil => simp [setFrameWeight, selfSumFW]
  | cons e rest ih =>
      rw [setFrameWeight]
      by_cases h : e.frame = f
      · simp only [if_pos h, selfSumFW, List.map_cons, List.sum_cons]
        ring
      · simp only [if_neg h, selfSumFW, List.map_cons, List.sum_cons] at ih ⊢
        rw [ih]; ring

theorem selfSumFW_foldl (ns : List CallTreeNode) :
    ∀ m, selfSumFW (ns.foldl applyNode m)
      = selfSumFW m + (ns.map CallTreeNode.getSelfWeight).sum := by
  induction ns with
  | nil => intro m; simp
  | cons c rest ih =>
      intro m
      rw [List.foldl_cons, ih, applyNode, selfSumFW_set, List.map_cons, List.sum_cons]
      ring

theorem sum_map_flatten (l : List (List CallTreeNode)) (g : CallTreeNode → ℚ) :
    (l.flatten.map g).sum = (l.map (fun xs => (xs.map g).sum)).sum := by
  induction l with
  | nil => rfl
  | cons xs rest ih =>
      rw [List.flatten_cons, List.map_append, List.sum_append, List.map_cons,
        List.sum_cons, ih]

/-- Under the weight model, the self weights of the non-root nodes of a
subtree sum to the subtree root's total weight. -/
theorem sum_selves_nonRootNodes (n : CallTreeNode) (h : WeightOk n) :
    ((nonRootNodes n).map CallTreeNode.getSelfWeight).sum = n.getTotalWeight := by
  induction n using CallTreeNode.ind with
  | _ r f t s cs ih =>
      have hself := h (CallTreeNode.mk r f t s cs) (mem_allNodes_self _)
      simp only [CallTreeNode.getTotalWeight, CallTreeNode.getSelfWeight,
        CallTreeNode.children, CallTreeNode.isRoot] at hself
      have hflat : (((allNodesForEach cs).filter (fun m => !m.isRoot)).map
          CallTreeNode.getSelfWeight).sum = (cs.map CallTreeNode.getTotalWeight).sum := by
        rw [filter_allNodesForEach, sum_map_flatten, List.map_map]
        refine congrArg List.sum (List.map_congr_left ?_)
        intro c hc
        exact ih c hc (weightOk_of_child h hc)
      rw [nonRootNodes_cons, List.map_append, List.sum_append, hflat]
      cases r with
      | true =>
          rw [hself.1, hself.2.2 rfl]
          simp [CallTreeNode.getTotalWeight]
      | false =>
          rw [hself.1]
          simp [CallTreeNode.getTotalWeight, CallTreeNode.getSelfWeight]

theorem nonneg_self_set {m : List FrameWeight} (hm : ∀ e ∈ m, 0 ≤ e.selfWeight)
    {f : Frame} {tw sw : ℚ} (hs : 0 ≤ sw) :
    ∀ e ∈ setFrameWeight m f tw sw, 0 ≤ e.selfWeight := by
  induction m with
  | nil =>
      intro e he
      rw [setFrameWeight] at he
      rcases List.mem_singleton.mp he with rfl
      exact hs
  | cons e₀ rest ih =>
      intro e he
      rw [setFrameWeight] at he
      by_cases h : e₀.frame = f
      · rw [if_pos h] at he
        rcases List.mem_cons.mp he with rfl | hr
        · have := hm e₀ (List.mem_cons_self _ _)
          simp only []
          positivity
        · exact hm e (List.mem_cons_of_mem _ hr)
      · rw [if_neg h] at he
        rcases List.mem_cons.mp he with rfl | hr
        · exact hm e (List.mem_cons_self _ _)
        · exact ih (fun d hd => hm d (List.mem_cons_of_mem _ hd)) e hr

theorem nonneg_self_foldl (ns : List CallTreeNode)
    (hns : ∀ c ∈ ns, 0 ≤ c.getSelfWeight) :
    ∀ m, (∀ e ∈ m, 0 ≤ e.selfWeight) →
      ∀ e ∈ ns.foldl applyNode m, 0 ≤ e.selfWeight := by
  induction ns with
  | nil => intro m hm; exact hm
  | cons c rest ih =>
      intro m hm
      rw [List.foldl_cons]
      exact ih (fun d hd => hns d (List.mem_cons_of_mem _ hd)) _
        (nonneg_self_set hm (hns c (List.mem_cons_self _ _)))

theorem sum_filterMap_entries (tw ms : ℚ) (m : List FrameWeight)
    (hm : ∀ e ∈ m, ms ≤ e.selfWeight) :
    ((m.filterMap (fun w =>
        if ms ≤ w.selfWeight then
          some { frame := w.frame
                 totalWeight := w.totalWeight
                 selfWeight := w.selfWeight
                 totalPercent := w.totalWeight / tw * 100
                 selfPercent := w.selfWeight / tw * 100 : BottomsUpEntry }
        else none)).map (fun e => e.selfWeight)).sum = selfSumFW m := by
  induction m with
  | nil => rfl
  | cons e rest ih =>
      rw [List.filterMap_cons, if_pos (hm e (List.mem_cons_self _ _))]
      simp only [List.map_cons, List.sum_cons, selfSumFW, List.map_cons, List.sum_cons]
      rw [ih (fun d hd => hm d (List.mem_cons_of_mem _ hd))]
      rfl

theorem nonRootNodes_nonneg_self {n : CallTreeNode} (h : WeightOk n) :
    ∀ c ∈ nonRootNodes n, 0 ≤ c.getSelfWeight := by
  intro c hc
  have hmem : c ∈ allNodes n := (List.mem_filter.mp hc).1
  exact (h c hmem).2.1

theorem walkSubtree_nonneg_self {n : CallTreeNode} (h : WeightOk n) :
    ∀ e ∈ walkSubtree n [], 0 ≤ e.selfWeight := by
  rw [walkSubtree_eq_foldl]
  exact nonneg_self_foldl _ (nonRootNodes_nonneg_self h) [] (by intro e he; cases he)

/-- Aggregation correctness: with the weight model and a zero self-weight
threshold, the self weights of the bottoms-up entries sum to the total weight
of the scoped subtree's root. -/
theorem bottomsUp_selfSum (n : CallTreeNode) (tw : ℚ) (h : WeightOk n) :
    ((buildBottomsUpEntries n tw 0).map (fun e => e.selfWeight)).sum
      = n.getTotalWeight := by
  rw [buildBottomsUpEntries]
  have hperm := List.mergeSort_perm
    ((walkSubtree n []).filterMap (fun w =>
      if (0 : ℚ) ≤ w.selfWeight then
        some { frame := w.frame
               totalWeight := w.totalWeight
               selfWeight := w.selfWeight
               totalPercent := w.totalWeight / tw * 100
               selfPercent := w.selfWeight / tw * 100 : BottomsUpEntry }
      else none))
    (fun a b => decide (b.selfWeight ≤ a.selfWeight))
  rw [List.Perm.sum_eq (List.Perm.map (fun e => e.selfWeight) hperm)]
  rw [sum_filterMap_entries tw 0 _ (walkSubtree_nonneg_self h)]
  rw [walkSubtree_eq_foldl, selfSumFW_foldl]
  rw [sum_selves_nonRootNodes n h]
  simp [selfSumFW]

/-! ## Per-frame characterization of the aggregation map -/

/-- The binding of frame `f` in the map, if any (`frameWeights.get(frame)`). -/
def entryFor (m : List FrameWeight) (f : Frame) : Option FrameWeight :=
  m.find? (fun e => decide (e.frame = f))

theorem entryFor_set_ne (m : List FrameWeight) {g f : Frame} (tw sw : ℚ)
    (hne : g ≠ f) : entryFor (setFrameWeight m g tw sw) f = entryFor m f := by
  induction m with
  | nil =>
      rw [setFrameWeight, entryFor, entryFor,
        List.find?_cons_of_neg _ (by simpa using hne), List.find?_nil]
  | cons e rest ih =>
      rw [setFrameWeight]
      by_cases h : e.frame = g
      · rw [if_pos h, entryFor, entryFor,
          List.find?_cons_of_neg _ (by simpa using h ▸ hne),
          List.find?_cons_of_neg _ (by simpa using h ▸ hne)]
      · rw [if_neg h, entryFor, entryFor]
        by_cases hf : e.frame = f
        · rw [List.find?_cons_of_pos _ (by simpa using hf),
            List.find?_cons_of_pos _ (by simpa using hf)]
        · rw [List.find?_cons_of_neg _ (by simpa using hf),
            List.find?_cons_of_neg _ (by simpa using hf)]
          exact ih

theorem entryFor_set_eq (m : List FrameWeight) (f : Frame) (tw sw : ℚ) :
    entryFor (setFrameWeight m f tw sw) f
      = some (match entryFor m f with
          | none => ⟨f, tw, sw⟩
          | some e => ⟨f, e.totalWeight + tw, e.selfWeight + sw⟩) := by
  induction m with
  | nil =>
      rw [setFrameWeight, entryFor, List.find?_cons_of_pos _ (by simp), entryFor,
        List.find?_nil]
  | cons e rest ih =>
      rw [setFrameWeight]
      by_cases h : e.frame = f
      · rw [if_pos h, entryFor, List.find?_cons_of_pos _ (by simpa using h), entryFor,
          List.find?_cons_of_pos _ (by simpa using h)]
        simp [h]
      · rw [if_neg h, entryFor, List.find?_cons_of_neg _ (by simpa using h), entryFor,
          List.find?_cons_of_neg _ (by simpa using h)]
        exact ih

/-- Folding a node into the binding of frame `f`: seed with the node's
weights if absent, otherwise add them on. -/
def foldStep (f : Frame) (o : Option FrameWeight) (c : CallTreeNode) :
    Option FrameWeight :=
  some (match o with
    | none => ⟨f, c.getTotalWeight, c.getSelfWeight⟩
    | some e => ⟨f, e.totalWeight + c.getTotalWeight, e.selfWeight + c.getSelfWeight⟩)

theorem entryFor_foldl (f : Frame) (ns : List CallTreeNode) :
    ∀ m, entryFor (ns.foldl applyNode m) f
      = (ns.filter (fun c => decide (c.frame = f))).foldl (foldStep f) (entryFor m f) := by
  induction ns with
  | nil => intro m; rfl
  | cons c rest ih =>
      intro m
      rw [List.foldl_cons, ih, List.filter_cons]
      by_cases h : c.frame = f
      · rw [if_pos (by simpa using h), List.foldl_cons, applyNode]
        rw [h, entryFor_set_eq]
        rfl
      · rw [if_neg (by simpa using h), applyNode, entryFor_set_ne _ _ _ h]

/-- Keys of the map after an update: a subset of the old keys plus the new
frame. -/
theorem keys_set_subset {x : Frame} {m : List FrameWeight} {g : Frame} {tw sw : ℚ}
    (hx : x ∈ (setFrameWeight m g tw sw).map (fun e => e.frame)) :
    x ∈ m.map (fun e => e.frame) ∨ x = g := by
  induction m with
  | nil =>
      rw [setFrameWeight] at hx
      simp at hx
      exact Or.inr hx
  | cons e rest ih =>
      rw [setFrameWeight] at hx
      by_cases h : e.frame = g
      · rw [if_pos h] at hx
        simp only [List.map_cons, List.mem_cons] at hx ⊢
        rcases hx with hx | hx
        · exact Or.inl (Or.inl hx)
        · exact Or.inl (Or.inr hx)
      · rw [if_neg h] at hx
        simp only [List.map_cons, List.mem_cons] at hx ⊢
        rcases hx with hx | hx
        · exact Or.inl (Or.inl hx)
        · rcases ih hx with h1 | h2
          · exact Or.inl (Or.inr h1)
          · exact Or.inr h2

theorem keys_nodup_set {m : List FrameWeight} (h : (m.map (fun e => e.frame)).Nodup)
    (g : Frame) (tw sw : ℚ) :
    ((setFrameWeight m g tw sw).map (fun e => e.frame)).Nodup := by
  induction m with
  | nil =>
      rw [setFrameWeight]
      simp
  | cons e rest ih =>
      rw [setFrameWeight]
      simp only [List.map_cons, List.nodup_cons] at h
      by_cases hg : e.frame = g
      · rw [if_pos hg]
        simp only [List.map_cons, List.nodup_cons]
        exact h
      · rw [if_neg hg]
        simp only [List.map_cons, List.nodup_cons]
        refine ⟨fun hmem => ?_, ih h.2⟩
        rcases keys_set_subset hmem with h1 | h2
        · exact h.1 h1
        · exact hg h2

theorem keys_nodup_foldl (ns : List CallTreeNode) :
    ∀ m, (m.map (fun e => e.frame)).Nodup →
      ((ns.foldl applyNode m).map (fun e => e.frame)).Nodup := by
  induction ns with
  | nil => intro m hm; exact hm
  | cons c rest ih =>
      intro m hm
      rw [List.foldl_cons]
      exact ih _ (keys_nodup_set hm _ _ _)

/-- With duplicate-free keys, the bindings whose frame is `f` are exactly the
one `find?` returns. -/
theorem filter_eq_of_entryFor {m : List FrameWeight}
    (hnd : (m.map (fun e => e.frame)).Nodup) {f : Frame} {e : FrameWeight}
    (he : entryFor m f = some e) :
    m.filter (fun x => decide (x.frame = f)) = [e] := by
  induction m with
  | nil => cases he
  | cons e₀ rest ih =>
      simp only [List.map_cons, List.nodup_cons] at hnd
      by_cases h : e₀.frame = f
      · rw [entryFor, List.find?_cons_of_pos _ (by simpa using h)] at he
        injection he with he
        subst he
        rw [List.filter_cons, if_pos (by simpa using h)]
        have : rest.filter (fun x => decide (x.frame = f)) = [] := by
          rw [List.filter_eq_nil_iff]
          intro x hx
          simp only [decide_eq_true_eq]
          intro hxf
          exact hnd.1 (h ▸ hxf ▸ List.mem_map_of_mem (fun e => e.frame) hx)
        rw [this]
      · rw [entryFor, List.find?_cons_of_neg _ (by simpa using h)] at he
        rw [List.filter_cons, if_neg (by simpa using h)]
        exact ih hnd.2 he

theorem filter_filterMap_entries (tw ms : ℚ) (f : Frame) (m : List FrameWeight) :
    ((m.filterMap (fun w =>
        if ms ≤ w.selfWeight then
          some { frame := w.frame
                 totalWeight := w.totalWeight
                 selfWeight := w.selfWeight
                 totalPercent := w.totalWeight / tw * 100
                 selfPercent := w.selfWeight / tw * 100 : BottomsUpEntry }
        else none)).filter (fun e => decide (e.frame = f)))
      = (m.filter (fun w => decide (w.frame = f))).filterMap (fun w =>
          if ms ≤ w.selfWeight then
            some { frame := w.frame
                   totalWeight := w.totalWeight
                   selfWeight := w.selfWeight
                   totalPercent := w.totalWeight / tw * 100
                   selfPercent := w.selfWeight / tw * 100 : BottomsUpEntry }
          else none) := by
  induction m with
  | nil => rfl
  | cons w rest ih =>
      rw [List.filterMap_cons, List.filter_cons]
      by_cases hs : ms ≤ w.selfWeight
      · rw [if_pos hs]
        by_cases hf : w.frame = f
        · rw [List.filter_cons, if_pos (by simpa using hf), if_pos (by simpa using hf),
            List.filterMap_cons, if_pos hs, ih]
        · rw [List.filter_cons, if_neg (by simpa using hf), if_neg (by simpa using hf),
            ih]
      · rw [if_neg hs]
        by_cases hf : w.frame = f
        · rw [if_pos (by simpa using hf), List.filterMap_cons, if_neg hs, ih]
        · rw [if_neg (by simpa using hf), ih]

/-- A frame occurring at exactly two nodes of the subtree yields a single
bottoms-up entry carrying the two nodes' summed self and total weights. -/
theorem bottomsUp_merges_two_occurrences (n : CallTreeNode) (tw ms : ℚ) (f : Frame)
    (n₁ n₂ : CallTreeNode)
    (hocc : (nonRootNodes n).filter (fun c => decide (c.frame = f)) = [n₁, n₂])
    (hms : ms ≤ n₁.getSelfWeight + n₂.getSelfWeight) :
    (buildBottomsUpEntries n tw ms).filter (fun e => decide (e.frame = f))
      = [{ frame := f
           totalWeight := n₁.getTotalWeight + n₂.getTotalWeight
           selfWeight := n₁.getSelfWeight + n₂.getSelfWeight
           totalPercent := (n₁.getTotalWeight + n₂.getTotalWeight) / tw * 100
           selfPercent := (n₁.getSelfWeight + n₂.getSelfWeight) / tw * 100 }] := by
  have hwalk : entryFor (walkSubtree n []) f
      = some ⟨f, n₁.getTotalWeight + n₂.getTotalWeight,
              n₁.getSelfWeight + n₂.getSelfWeight⟩ := by
    rw [walkSubtree_eq_foldl, entryFor_foldl, hocc]
    rfl
  have hnd : ((walkSubtree n []).map (fun e => e.frame)).Nodup := by
    rw [walkSubtree_eq_foldl]
    exact keys_nodup_foldl _ [] (by simp)
  have hfil := filter_eq_of_entryFor hnd hwalk
  rw [buildBottomsUpEntries]
  rw [List.perm_singleton.mp
    (List.Perm.filter _ (List.mergeSort_perm _ _) |>.trans
      (by rw [filter_filterMap_entries, hfil, List.filterMap_cons, if_pos hms]
          rfl))]

/-! ## Output only ever comes from non-root nodes -/

/-- `l` is the rendered line of node `m`: a non-root node whose frame and
weights the line carries. -/
def LineFromNode (l : TreeLine) (m : CallTreeNode) : Prop :=
  m.isRoot = false ∧ l.name = m.frame.name ∧ l.file = m.frame.file
  ∧ l.line = m.frame.line ∧ l.col = m.frame.col
  ∧ l.totalWeight = m.getTotalWeight ∧ l.selfWeight = m.getSelfWeight

theorem forEach_lines_sound (ds : List CallTreeNode)
    (h : ∀ c ∈ ds, ∀ tw mw pfx il ir, ∀ l ∈ buildTreeLines c tw mw pfx il ir,
      ∃ m ∈ allNodes c, LineFromNode l m) :
    ∀ tw mw pfx tl, ∀ l ∈ buildTreeLinesForEach ds tw mw pfx tl,
      ∃ c ∈ ds, ∃ m ∈ allNodes c, LineFromNode l m := by
  induction ds with
  | nil => intro tw mw pfx tl l hl; rw [buildTreeLinesForEach] at hl; cases hl
  | cons c rest ih =>
      intro tw mw pfx tl l hl
      rw [buildTreeLinesForEach] at hl
      rcases List.mem_append.mp hl with hl | hl
      · rcases h c (List.mem_cons_self _ _) _ _ _ _ _ l hl with ⟨m, hm, hlm⟩
        exact ⟨c, List.mem_cons_self _ _, m, hm, hlm⟩
      · rcases ih (fun d hd => h d (List.mem_cons_of_mem _ hd)) _ _ _ _ l hl with
          ⟨d, hd, m, hm, hlm⟩
        exact ⟨d, List.mem_cons_of_mem _ hd, m, hm, hlm⟩

theorem buildTreeLines_sound (n : CallTreeNode) :
    ∀ tw mw pfx il ir, ∀ l ∈ buildTreeLines n tw mw pfx il ir,
      ∃ m ∈ allNodes n, LineFromNode l m := by
  induction n using CallTreeNode.ind with
  | _ r f t s cs ih =>
      intro tw mw pfx il ir l hl
      have hfor := forEach_lines_sound (visibleChildren cs mw)
        (fun c hc => ih c (mem_visibleChildren hc))
      rw [buildTreeLines] at hl
      simp only [CallTreeNode.isRoot, CallTreeNode.children] at hl
      cases r with
      | true =>
          rw [if_pos rfl] at hl
          rcases hfor _ _ _ _ l hl with ⟨c, hc, m, hm, hlm⟩
          exact ⟨m, mem_allNodes_of_child (mem_visibleChildren hc) hm, hlm⟩
      | false =>
          rw [if_neg (by simp)] at hl
          rcases List.mem_cons.mp hl with rfl | hl
          · refine ⟨CallTreeNode.mk false f t s cs, mem_allNodes_self _, ?_⟩
            refine ⟨rfl, ?_, ?_, ?_, ?_, ?_, ?_⟩ <;>
              simp [CallTreeNode.frame, CallTreeNode.getTotalWeight,
                CallTreeNode.getSelfWeight]
          · rcases hfor _ _ _ _ l hl with ⟨c, hc, m, hm, hlm⟩
            exact ⟨m, mem_allNodes_of_child (mem_visibleChildren hc) hm, hlm⟩

theorem frames_foldl (ns : List CallTreeNode) :
    ∀ m, ∀ e ∈ ns.foldl applyNode m,
      e.frame ∈ m.map (fun x => x.frame) ∨ ∃ c ∈ ns, e.frame = c.frame := by
  induction ns with
  | nil => intro m e he; exact Or.inl (List.mem_map_of_mem _ he)
  | cons c rest ih =>
      intro m e he
      rw [List.foldl_cons] at he
      rcases ih _ e he with h1 | ⟨d, hd, hde⟩
      · rcases keys_set_subset h1 with h2 | h3
        · exact Or.inl h2
        · exact Or.inr ⟨c, List.mem_cons_self _ _, h3⟩
      · exact Or.inr ⟨d, List.mem_cons_of_mem _ hd, hde⟩

theorem buildBottomsUpEntries_sound (n : CallTreeNode) (tw ms : ℚ) :
    ∀ e ∈ buildBottomsUpEntries n tw ms,
      ∃ m ∈ allNodes n, m.isRoot = false ∧ e.frame = m.frame := by
  intro e he
  rw [buildBottomsUpEntries] at he
  have he' := List.mem_mergeSort.mp he
  rcases List.mem_filterMap.mp he' with ⟨w, hw, hconv⟩
  have hef : e.frame = w.frame := by
    by_cases hs : ms ≤ w.selfWeight
    · rw [if_pos hs] at hconv
      injection hconv with hconv
      rw [← hconv]
    · rw [if_neg hs] at hconv; cases hconv
  rw [walkSubtree_eq_foldl] at hw
  rcases frames_foldl _ [] w hw with h1 | ⟨c, hc, hwc⟩
  · cases h1
  · rcases List.mem_filter.mp hc with ⟨hcmem, hcroot⟩
    exact ⟨c, hcmem, by simpa using hcroot, hef.trans hwc⟩

/-! ## Counting rendered lines -/

mutual

/-- The number of lines the renderer emits below (and at) `n`, as a function
of the threshold alone. -/
def countLines (mw : ℚ) (n : CallTreeNode) : Nat :=
  (if n.isRoot then 0 else 1)
    + countLinesForEach mw (n.children.filter (fun c => decide (mw ≤ c.getTotalWeight)))
termination_by sizeOf n
decreasing_by
  exact lt_of_le_of_lt (List.Sublist.sizeOf_le_of_nodes (List.filter_sublist _))
    (sizeOf_children_lt n)

def countLinesForEach (mw : ℚ) : List CallTreeNode → Nat
  | [] => 0
  | c :: rest => countLines mw c + countLinesForEach mw rest
termination_by l => sizeOf l
decreasing_by
  · simp only [List.cons.sizeOf_spec]; omega
  · simp only [List.cons.sizeOf_spec]; omega

end

theorem countLinesForEach_eq_sum (mw : ℚ) (l : List CallTreeNode) :
    countLinesForEach mw l = (l.map (countLines mw)).sum := by
  induction l with
  | nil => rw [countLinesForEach]; rfl
  | cons c rest ih => rw [countLinesForEach, List.map_cons, List.sum_cons, ih]

theorem forEach_length (ds : List CallTreeNode)
    (h : ∀ c ∈ ds, ∀ tw mw pfx il ir,
      (buildTreeLines c tw mw pfx il ir).length = countLines mw c) :
    ∀ tw mw pfx tl, (buildTreeLinesForEach ds tw mw pfx tl).length
      = countLinesForEach mw ds := by
  induction ds with
  | nil => intro tw mw pfx tl; rw [buildTreeLinesForEach, countLinesForEach]; rfl
  | cons c rest ih =>
      intro tw mw pfx tl
      rw [buildTreeLinesForEach, countLinesForEach, List.length_append,
        h c (List.mem_cons_self _ _), ih (fun d hd => h d (List.mem_cons_of_mem _ hd))]

theorem buildTreeLines_length (n : CallTreeNode) :
    ∀ tw mw pfx il ir, (buildTreeLines n tw mw pfx il ir).length = countLines mw n := by
  induction n using CallTreeNode.ind with
  | _ r f t s cs ih =>
      intro tw mw pfx il ir
      have hsorted : countLinesForEach mw (visibleChildren cs mw)
          = countLinesForEach mw (cs.filter (fun c => decide (mw ≤ c.getTotalWeight))) := by
        rw [countLinesForEach_eq_sum, countLinesForEach_eq_sum]
        exact List.Perm.sum_eq (List.Perm.map _ (List.mergeSort_perm _ _))
      have hfor := forEach_length (visibleChildren cs mw)
        (fun c hc => ih c (mem_visibleChildren hc))
      rw [buildTreeLines, countLines]
      simp only [CallTreeNode.isRoot, CallTreeNode.children]
      cases r with
      | true =>
          rw [if_pos rfl, if_pos rfl, hfor, hsorted]
          omega
      | false =>
          have h1 : (false = true) = False := by simp
          simp only [h1, if_false, List.length_cons, hfor, hsorted]
          omega

theorem sum_map_le_of_sublist {s l : List CallTreeNode} (hsub : s.Sublist l)
    {g f : CallTreeNode → Nat} (hle : ∀ c ∈ l, g c ≤ f c) :
    (s.map g).sum ≤ (l.map f).sum := by
  induction hsub with
  | slnil => exact le_refl 0
  | cons a h ih =>
      rw [List.map_cons, List.sum_cons]
      exact le_trans (ih (fun c hc => hle c (List.mem_cons_of_mem _ hc))) (by omega)
  | cons₂ a h ih =>
      rw [List.map_cons, List.sum_cons, List.map_cons, List.sum_cons]
      have := hle a (List.mem_cons_self _ _)
      have := ih (fun c hc => hle c (List.mem_cons_of_mem _ hc))
      omega

/-- Raising the threshold never increases the number of rendered lines. -/
theorem countLines_antitone (n : CallTreeNode) :
    ∀ t₁ t₂ : ℚ, t₁ ≤ t₂ → countLines t₂ n ≤ countLines t₁ n := by
  induction n using CallTreeNode.ind with
  | _ r f t s cs ih =>
      intro t₁ t₂ h12
      rw [countLines, countLines, countLinesForEach_eq_sum, countLinesForEach_eq_sum]
      simp only [CallTreeNode.isRoot, CallTreeNode.children]
      have hsub : List.Sublist (cs.filter (fun c => decide (t₂ ≤ c.getTotalWeight)))
          (cs.filter (fun c => decide (t₁ ≤ c.getTotalWeight))) :=
        List.monotone_filter_right cs (fun c hc => by
          simp only [decide_eq_true_eq] at hc ⊢
          exact le_trans h12 hc)
      have hsum := sum_map_le_of_sublist hsub
        (fun c hc => ih c (List.mem_filter.mp hc).1 t₁ t₂ h12)
      omega

/-- At threshold `0`, every non-root node of a non-negatively weighted
subtree is rendered. -/
theorem countLines_zero (n : CallTreeNode)
    (h : ∀ m ∈ allNodes n, 0 ≤ m.getTotalWeight) :
    countLines 0 n = (nonRootNodes n).length := by
  induction n using CallTreeNode.ind with
  | _ r f t s cs ih =>
      rw [countLines, countLinesForEach_eq_sum, nonRootNodes_cons,
        filter_allNodesForEach]
      simp only [CallTreeNode.isRoot, CallTreeNode.children]
      have hall : cs.filter (fun c => decide ((0:ℚ) ≤ c.getTotalWeight)) = cs := by
        rw [List.filter_eq_self]
        intro c hc
        simp only [decide_eq_true_eq]
        exact h c (mem_allNodes_of_child hc (mem_allNodes_self c))
      rw [hall, List.length_append, List.length_flatten, List.map_map]
      have hmap : ∀ c ∈ cs, countLines 0 c = (nonRootNodes c).length := by
        intro c hc
        exact ih c hc (fun m hm => h m (mem_allNodes_of_child hc hm))
      rw [List.map_congr_left hmap,
        show (List.length ∘ nonRootNodes) = (fun a => (nonRootNodes a).length) from rfl]
      cases r with
      | true => simp
      | false => simp

/-! ## String-level facts about the composed reports -/

theorem joinLines_cons_length (s : String) (xs : List String) :
    s.length ≤ (joinLines (s :: xs)).length := by
  cases xs with
  | nil => exact le_refl _
  | cons x rest =>
      rw [joinLines]
      · simp only [String.length_append]
        omega
      · simp

theorem joinLines_cons_ne_sentinel {s : String} (xs : List String)
    (h : 17 < s.length) : joinLines (s :: xs) ≠ "No data available" := by
  intro heq
  have h1 := joinLines_cons_length s xs
  rw [heq] at h1
  have h2 : ("No data available" : String).length = 17 := by decide
  omega

/-! ## The section data each report is built from (spec-side rendering) -/

/-- The single-subtree report as a pure function of the already-computed
bottoms-up entries and call-tree lines; follows the spec's words for the
composition of `generateTreeSummary`. -/
def singleSubtreeRender (node : CallTreeNode) (totalWeight : ℚ)
    (formatValue : ℚ → String) (bottomsUpEntries : List BottomsUpEntry)
    (callTreeLines : List TreeLine) : String :=
  if bottomsUpEntries.length = 0 ∧ callTreeLines.length = 0 then
    "No data available"
  else
    joinLines (["Performance Summary", eqSep, ""]
      ++ selectedNodeLines node totalWeight formatValue
      ++ (if bottomsUpEntries.length > 0 then
            ["Bottoms Up (by self time, >=1% of total):", dashSep, ""]
            ++ (bottomsUpEntries.map (fun e => bottomsUpEntryLines e formatValue)).flatten
          else [])
      ++ (if callTreeLines.length > 0 then
            ["Call Tree (callees, >=1% of selection):", dashSep, ""]
            ++ (callTreeLines.map (fun l => formatTreeLine l formatValue)).flatten
            ++ [""]
          else [])
      ++ [dashSep, "Total weight of profile: " ++ formatValue totalWeight])

/-- One profile's block of the multi-profile report as a pure function of its
already-computed sections; follows the spec's words for the composition of
`generateAllProfilesSummary`. -/
def multiProfileBlockRender (count i : Nat) (info : ProfileInfo)
    (bottomsUpEntries : List BottomsUpEntry) (callTreeLines : List TreeLine) :
    List String :=
  (if count > 1 then
      [eqSep,
       "Profile " ++ toString (i + 1) ++ "/" ++ toString count ++ ": " ++ info.name,
       "Total: " ++ info.profile.formatValue info.profile.getTotalNonIdleWeight,
       eqSep,
       ""]
    else [])
  ++ (if bottomsUpEntries.length > 0 then
        ["Bottoms Up (by self time, >=1% of total):", dashSep, ""]
        ++ (bottomsUpEntries.map
            (fun e => bottomsUpEntryLines e info.profile.formatValue)).flatten
      else [])
  ++ (if callTreeLines.length > 0 then
        ["Call Tree (>=1% of total):", dashSep, ""]
        ++ (callTreeLines.map
            (fun l => formatTreeLine l info.profile.formatValue)).flatten
        ++ [""]
      else [])

theorem generateTreeSummary_sections (opts : TreeSummaryOptions) :
    generateTreeSummary opts
      = singleSubtreeRender opts.node opts.totalWeight opts.formatValue
          (buildBottomsUpEntries opts.node opts.totalWeight (opts.totalWeight / 100))
          (buildTreeLines opts.node opts.totalWeight
            ((if opts.node.isRoot then opts.totalWeight
              else opts.node.getTotalWeight) / 100) "" true true) := by
  have h1 : opts.totalWeight * MIN_WEIGHT_THRESHOLD = opts.totalWeight / 100 := by
    rw [MIN_WEIGHT_THRESHOLD]; ring
  have h2 : (if opts.node.isRoot then opts.totalWeight
        else opts.node.getTotalWeight) * MIN_WEIGHT_THRESHOLD
      = (if opts.node.isRoot then opts.totalWeight
        else opts.node.getTotalWeight) / 100 := by
    rw [MIN_WEIGHT_THRESHOLD]; ring
  rw [generateTreeSummary, singleSubtreeRender]
  rw [h1, h2]

theorem profileBlockLines_sections (count i : Nat) (info : ProfileInfo) :
    profileBlockLines count i info
      = multiProfileBlockRender count i info
          (buildBottomsUpEntries info.profile.getGroupedCalltreeRoot
            info.profile.getTotalNonIdleWeight
            (info.profile.getTotalNonIdleWeight / 100))
          (buildTreeLines info.profile.getGroupedCalltreeRoot
            info.profile.getTotalNonIdleWeight
            (info.profile.getTotalNonIdleWeight / 100) "" true true) := by
  have h1 : info.profile.getTotalNonIdleWeight * MIN_WEIGHT_THRESHOLD
      = info.profile.getTotalNonIdleWeight / 100 := by
    rw [MIN_WEIGHT_THRESHOLD]; ring
  rw [profileBlockLines, multiProfileBlockRender]
  rw [h1]

/-! ## Concrete example profiles -/

/-- A caller-supplied value formatter used in the worked examples: weights in
the examples are integers, printed as such. -/
def exFormatValue (v : ℚ) : String := toString v.num

def frameA : Frame := { name := "A" }

def frameB : Frame := { name := "B" }

def speedscopeRootFrame : Frame := { name := "(speedscope root)" }

/-- `B(total=90, self=90)`, a leaf. -/
def nodeB : CallTreeNode := .mk false frameB 90 90 []

/-- `A(total=100, self=10)` with child `B`. -/
def nodeA : CallTreeNode := .mk false frameA 100 10 [nodeB]

/-- The synthetic root of the worked example: `root → A → B`. -/
def exRoot : CallTreeNode := .mk true speedscopeRootFrame 100 0 [nodeA]

/-- The worked example's report options: start at the root, profile total
weight `100`. -/
def exOpts : TreeSummaryOptions :=
  { node := exRoot, totalWeight := 100, formatValue := exFormatValue }

/-- The empty profile: a single root node with no children, total weight 0. -/
def emptyRootNode : CallTreeNode := .mk true speedscopeRootFrame 0 0 []

def emptyInfo : ProfileInfo := ⟨"empty", ⟨emptyRootNode, 0, exFormatValue⟩⟩

/-! ## The claims -/

/-- C1: for every call tree whose weight model satisfies, at each node,
totalWeight = selfWeight + sum of children's totalWeight (the synthetic root
contributing no self weight, self weights non-negative), the bottoms-up
aggregation from any start node with self-weight threshold 0 yields entries
whose self weights sum exactly to the total weight of the scoped subtree's
root, regardless of tree shape or recursion. -/
theorem claim_C1 (n : CallTreeNode) (tw : ℚ) (h : WeightOk n) :
    ((buildBottomsUpEntries n tw 0).map (fun e => e.selfWeight)).sum
      = n.getTotalWeight :=
  bottomsUp_selfSum n tw h

theorem claim_C1_witness :
    WeightOk exRoot
    ∧ ((buildBottomsUpEntries exRoot 100 0).map (fun e => e.selfWeight)).sum
        = exRoot.getTotalWeight := by
  have hOk : WeightOk exRoot := by
    intro m hm
    simp only [exRoot, nodeA, nodeB, allNodes_def, allNodesForEach,
      List.mem_cons, List.not_mem_nil, or_false, List.append_nil] at hm
    rcases hm with rfl | rfl | rfl <;>
      norm_num [CallTreeNode.getTotalWeight, CallTreeNode.getSelfWeight,
        CallTreeNode.children, CallTreeNode.isRoot]
  exact ⟨hOk, claim_C1 exRoot 100 hOk⟩

/-- C2: the synthetic root is never emitted as a call-tree line and never
contributes an entry or any weight to the bottoms-up aggregation: every
rendered line carries the frame and weights of some non-root node of the
subtree, every bottoms-up entry's frame is the frame of some non-root node,
the aggregation map is exactly a fold over the non-root nodes, and at a root
start node the renderer processes only the root's children. -/
theorem claim_C2 :
    (∀ n tw mw pfx il ir, ∀ l ∈ buildTreeLines n tw mw pfx il ir,
        ∃ m ∈ allNodes n, LineFromNode l m)
    ∧ (∀ n tw ms, ∀ e ∈ buildBottomsUpEntries n tw ms,
        ∃ m ∈ allNodes n, m.isRoot = false ∧ e.frame = m.frame)
    ∧ (∀ n fw, walkSubtree n fw
        = ((allNodes n).filter (fun m => !m.isRoot)).foldl applyNode fw)
    ∧ (∀ n tw mw pfx il ir, n.isRoot = true →
        buildTreeLines n tw mw pfx il ir
          = buildTreeLinesForEach (visibleChildren n.children mw) tw mw "" true) := by
  refine ⟨fun n => buildTreeLines_sound n, fun n => buildBottomsUpEntries_sound n,
    fun n fw => ?_, fun n tw mw pfx il ir h => ?_⟩
  · rw [walkSubtree_eq_foldl, nonRootNodes]
  · rw [buildTreeLines, if_pos h]

/-- The line the renderer emits for `A` in the worked example. -/
def exLineA : TreeLine :=
  { indent := "", name := "A", file := none, line := none, col := none,
    totalWeight := 100, selfWeight := 10, totalPercent := 100, selfPercent := 10 }

/-- The line the renderer emits for `B` in the worked example. -/
def exLineB : TreeLine :=
  { indent := "└─ ", name := "B", file := none, line := none, col := none,
    totalWeight := 90, selfWeight := 90, totalPercent := 90, selfPercent := 90 }

theorem exRoot_lines :
    buildTreeLines exRoot 100 (100 * MIN_WEIGHT_THRESHOLD) "" true true
      = [exLineA, exLineB] := by
  norm_num [buildTreeLines, buildTreeLinesForEach, visibleChildren,
    exRoot, nodeA, nodeB, CallTreeNode.isRoot, CallTreeNode.children,
    CallTreeNode.frame, CallTreeNode.getTotalWeight, CallTreeNode.getSelfWeight,
    List.mergeSort, MIN_WEIGHT_THRESHOLD, frameA, frameB, speedscopeRootFrame,
    exLineA, exLineB]

theorem claim_C2_witness :
    (∃ m ∈ allNodes exRoot, LineFromNode exLineA m)
    ∧ walkSubtree exRoot []
        = ((allNodes exRoot).filter (fun m => !m.isRoot)).foldl applyNode [] := by
  constructor
  · exact claim_C2.1 exRoot 100 (100 * MIN_WEIGHT_THRESHOLD) "" true true exLineA
      (by rw [exRoot_lines]; exact List.mem_cons_self _ _)
  · exact claim_C2.2.2.1 exRoot []

/-- C3: when one frame identity occurs at exactly two nodes of the subtree
(different depths or recursion) with self weights `a` and `b`, the bottoms-up
aggregation produces a single entry for that frame with self weight exactly
`a + b` and total weight the sum of the two nodes' total weights — never two
separate entries. -/
theorem claim_C3 (n : CallTreeNode) (tw ms : ℚ) (f : Frame) (n₁ n₂ : CallTreeNode)
    (hocc : (nonRootNodes n).filter (fun c => decide (c.frame = f)) = [n₁, n₂])
    (hms : ms ≤ n₁.getSelfWeight + n₂.getSelfWeight) :
    (buildBottomsUpEntries n tw ms).filter (fun e => decide (e.frame = f))
      = [{ frame := f
           totalWeight := n₁.getTotalWeight + n₂.getTotalWeight
           selfWeight := n₁.getSelfWeight + n₂.getSelfWeight
           totalPercent := (n₁.getTotalWeight + n₂.getTotalWeight) / tw * 100
           selfPercent := (n₁.getSelfWeight + n₂.getSelfWeight) / tw * 100 }] :=
  bottomsUp_merges_two_occurrences n tw ms f n₁ n₂ hocc hms

def frameF : Frame := { name := "f" }

/-- The inner (recursive) occurrence of `f`: total 30, self 30. -/
def recInner : CallTreeNode := .mk false frameF 30 30 []

/-- The outer occurrence of `f`: total 80, self 50. -/
def recOuter : CallTreeNode := .mk false frameF 80 50 [recInner]

/-- A profile whose frame `f` appears at two depths via recursion. -/
def recRoot : CallTreeNode := .mk true speedscopeRootFrame 80 0 [recOuter]

theorem claim_C3_witness :
    (nonRootNodes recRoot).filter (fun c => decide (c.frame = frameF))
        = [recOuter, recInner]
    ∧ (1 : ℚ) ≤ recOuter.getSelfWeight + recInner.getSelfWeight
    ∧ (buildBottomsUpEntries recRoot 80 1).filter (fun e => decide (e.frame = frameF))
        = [{ frame := frameF
             totalWeight := recOuter.getTotalWeight + recInner.getTotalWeight
             selfWeight := recOuter.getSelfWeight + recInner.getSelfWeight
             totalPercent := (recOuter.getTotalWeight + recInner.getTotalWeight)
               / 80 * 100
             selfPercent := (recOuter.getSelfWeight + recInner.getSelfWeight)
               / 80 * 100 }] := by
  have hocc : (nonRootNodes recRoot).filter (fun c => decide (c.frame = frameF))
      = [recOuter, recInner] := by
    norm_num [nonRootNodes, allNodes, allNodesForEach, recRoot, recOuter, recInner,
      CallTreeNode.isRoot, CallTreeNode.frame, List.filter, frameF,
      speedscopeRootFrame]
  have hms : (1 : ℚ) ≤ recOuter.getSelfWeight + recInner.getSelfWeight := by
    norm_num [recOuter, recInner, CallTreeNode.getSelfWeight]
  exact ⟨hocc, hms, claim_C3 recRoot 80 1 frameF recOuter recInner hocc hms⟩

/-- `Bb(total=4, self=4)`, far below 1% of the whole profile. -/
def deepB : CallTreeNode := .mk false { name := "Bb" } 4 4 []

/-- `Aa(total=5, self=1)`, a deep selection in a profile of total weight
1000. -/
def deepA : CallTreeNode := .mk false { name := "Aa" } 5 1 [deepB]

/-- C4: the single-subtree report thresholds its bottoms-up section at 1% of
the whole-profile total weight but its call-tree section at 1% of the
selected node's own total weight (the profile total only when the start node
is the root), while the multi-profile report thresholds both sections of each
profile at 1% of that profile's own total weight.  A deep selection (`Aa`,
total 5 in a 1000-weight profile) therefore keeps its child `Bb` (total 4) in
the call tree, although a profile-relative threshold would drop it, and its
bottoms-up section is empty under the profile-relative threshold although a
selection-relative one would keep both frames. -/
theorem claim_C4 :
    (∀ opts : TreeSummaryOptions,
      generateTreeSummary opts
        = singleSubtreeRender opts.node opts.totalWeight opts.formatValue
            (buildBottomsUpEntries opts.node opts.totalWeight (opts.totalWeight / 100))
            (buildTreeLines opts.node opts.totalWeight
              ((if opts.node.isRoot then opts.totalWeight
                else opts.node.getTotalWeight) / 100) "" true true))
    ∧ (∀ count i info,
        profileBlockLines count i info
          = multiProfileBlockRender count i info
              (buildBottomsUpEntries info.profile.getGroupedCalltreeRoot
                info.profile.getTotalNonIdleWeight
                (info.profile.getTotalNonIdleWeight / 100))
              (buildTreeLines info.profile.getGroupedCalltreeRoot
                info.profile.getTotalNonIdleWeight
                (info.profile.getTotalNonIdleWeight / 100) "" true true))
    ∧ (∀ profiles, generateAllProfilesSummary profiles
        = joinLines (["Performance Profile Summary", eqSep, "",
            "Total profiles: " ++ toString profiles.length, ""]
          ++ profilesLoop profiles.length 0 profiles))
    ∧ (buildTreeLines deepA 1000 (deepA.getTotalWeight / 100) "" true true).length = 2
    ∧ (buildTreeLines deepA 1000 ((1000 : ℚ) / 100) "" true true).length = 1
    ∧ buildBottomsUpEntries deepA 1000 ((1000 : ℚ) / 100) = []
    ∧ (buildBottomsUpEntries deepA 1000 (deepA.getTotalWeight / 100)).length = 2 := by
  refine ⟨generateTreeSummary_sections, profileBlockLines_sections,
    fun profiles => rfl, ?_, ?_, ?_, ?_⟩
  · norm_num [buildTreeLines, buildTreeLinesForEach, visibleChildren, deepA, deepB,
      CallTreeNode.isRoot, CallTreeNode.children, CallTreeNode.frame,
      CallTreeNode.getTotalWeight, CallTreeNode.getSelfWeight, List.mergeSort]
  · norm_num [buildTreeLines, buildTreeLinesForEach, visibleChildren, deepA, deepB,
      CallTreeNode.isRoot, CallTreeNode.children, CallTreeNode.frame,
      CallTreeNode.getTotalWeight, CallTreeNode.getSelfWeight, List.mergeSort]
  · norm_num [buildBottomsUpEntries, walkSubtree, walkSubtreeForEach, setFrameWeight,
      deepA, deepB, CallTreeNode.isRoot, CallTreeNode.children, CallTreeNode.frame,
      CallTreeNode.getTotalWeight, CallTreeNode.getSelfWeight, List.mergeSort,
      List.filterMap]
  · norm_num [buildBottomsUpEntries, walkSubtree, walkSubtreeForEach, setFrameWeight,
      deepA, deepB, CallTreeNode.isRoot, CallTreeNode.children, CallTreeNode.frame,
      CallTreeNode.getTotalWeight, CallTreeNode.getSelfWeight, List.mergeSort,
      List.filterMap]

theorem exRoot_bottomsUp :
    buildBottomsUpEntries exRoot 100 (100 * MIN_WEIGHT_THRESHOLD)
      = [{ frame := frameB, totalWeight := 90, selfWeight := 90,
           totalPercent := 90, selfPercent := 90 },
         { frame := frameA, totalWeight := 100, selfWeight := 10,
           totalPercent := 100, selfPercent := 10 }] := by
  norm_num [buildBottomsUpEntries, walkSubtree, walkSubtreeForEach, setFrameWeight,
    exRoot, nodeA, nodeB, CallTreeNode.isRoot, CallTreeNode.children,
    CallTreeNode.frame, CallTreeNode.getTotalWeight, CallTreeNode.getSelfWeight,
    List.mergeSort, List.filterMap, MIN_WEIGHT_THRESHOLD, frameA, frameB,
    speedscopeRootFrame]

set_option maxRecDepth 20000 in
/-- C5: for the profile `root → A(total=100, self=10) → B(total=90, self=90)`
with total weight 100, the report generated from the root has a Bottoms Up
section with exactly the two entries B (self 90, 90%) before A (self 10, 10%)
and a Call Tree section with A as sole top-level line carrying
`[100 (100.0%), self: 10 (10.0%)]` and B indented beneath it carrying
`[90 (90.0%), self: 90 (90.0%)]`. -/
theorem claim_C5 :
    generateTreeSummary exOpts
      = "Performance Summary\n" ++ eqSep
        ++ "\n\nBottoms Up (by self time, >=1% of total):\n" ++ dashSep
        ++ "\n\nB\n[self: 90 (90.0%), total: 90 (90.0%)]\n\nA\n[self: 10 (10.0%), total: 100 (100.0%)]\n\nCall Tree (callees, >=1% of selection):\n"
        ++ dashSep
        ++ "\n\nA\n[100 (100.0%), self: 10 (10.0%)]\n└─ B\n└─ [90 (90.0%), self: 90 (90.0%)]\n\n"
        ++ dashSep ++ "\nTotal weight of profile: 100" := by
  have hp90 : formatPercent 90 = "90.0%" := by
    norm_num [formatPercent]
    rfl
  have hp100 : formatPercent 100 = "100.0%" := by
    norm_num [formatPercent]
    rfl
  have hp10 : formatPercent 10 = "10.0%" := by
    norm_num [formatPercent]
    rfl
  simp only [generateTreeSummary, exOpts]
  rw [show (if exRoot.isRoot = true then (100 : ℚ) else exRoot.getTotalWeight) = 100
      from rfl,
    exRoot_bottomsUp, exRoot_lines]
  simp only [selectedNodeLines, exRoot, CallTreeNode.isRoot, if_pos rfl,
    List.length_cons, List.length_nil, List.map_cons, List.map_nil,
    bottomsUpEntryLines, formatTreeLine, nameWithLocation, locationOf,
    exFormatValue, frameA, frameB, exLineA, exLineB, hp90, hp100, hp10]
  rfl

/-- C6: call-tree filtering is monotone in the threshold — for every tree,
start node, baseline and prefix flags, raising the threshold never increases
the number of rendered lines — and a threshold of 0 renders every (non-root)
node of the subtree when total weights are non-negative. -/
theorem claim_C6 :
    (∀ (n : CallTreeNode) (tw pfx_a il ir t₁ t₂),
      t₁ ≤ t₂ →
        (buildTreeLines n tw t₂ pfx_a il ir).length
          ≤ (buildTreeLines n tw t₁ pfx_a il ir).length)
    ∧ (∀ (n : CallTreeNode) (tw pfx_a il ir),
        (∀ m ∈ allNodes n, 0 ≤ m.getTotalWeight) →
          (buildTreeLines n tw 0 pfx_a il ir).length
            = ((allNodes n).filter (fun m => !m.isRoot)).length) := by
  constructor
  · intro n tw pfx_a il ir t₁ t₂ h12
    rw [buildTreeLines_length, buildTreeLines_length]
    exact countLines_antitone n t₁ t₂ h12
  · intro n tw pfx_a il ir h
    rw [buildTreeLines_length, countLines_zero n h, nonRootNodes]

theorem claim_C6_witness :
    (buildTreeLines exRoot 100 1 "" true true).length
        ≤ (buildTreeLines exRoot 100 0 "" true true).length
    ∧ (buildTreeLines exRoot 100 0 "" true true).length
        = ((allNodes exRoot).filter (fun m => !m.isRoot)).length := by
  constructor
  · exact claim_C6.1 exRoot 100 "" true true 0 1 (by norm_num)
  · exact claim_C6.2 exRoot 100 "" true true (by
      intro m hm
      simp only [exRoot, nodeA, nodeB, allNodes_def, allNodesForEach,
        List.mem_cons, List.not_mem_nil, or_false, List.append_nil] at hm
      rcases hm with rfl | rfl | rfl <;> norm_num [CallTreeNode.getTotalWeight])

/-- C7: the single-subtree report is exactly the sentinel string
`No data available` precisely when both the bottoms-up entry list and the
call-tree line list are empty (as for the empty profile: a lone root with no
children and total weight 0); whenever either section is non-empty the
sentinel is not returned. -/
theorem claim_C7 :
    (∀ opts : TreeSummaryOptions,
      generateTreeSummary opts = "No data available"
        ↔ (buildBottomsUpEntries opts.node opts.totalWeight
             (opts.totalWeight * MIN_WEIGHT_THRESHOLD) = []
           ∧ buildTreeLines opts.node opts.totalWeight
               ((if opts.node.isRoot then opts.totalWeight
                 else opts.node.getTotalWeight) * MIN_WEIGHT_THRESHOLD)
               "" true true = []))
    ∧ (∀ fv, generateTreeSummary ⟨emptyRootNode, 0, fv⟩ = "No data available") := by
  have hmain : ∀ opts : TreeSummaryOptions,
      generateTreeSummary opts = "No data available"
        ↔ (buildBottomsUpEntries opts.node opts.totalWeight
             (opts.totalWeight * MIN_WEIGHT_THRESHOLD) = []
           ∧ buildTreeLines opts.node opts.totalWeight
               ((if opts.node.isRoot then opts.totalWeight
                 else opts.node.getTotalWeight) * MIN_WEIGHT_THRESHOLD)
               "" true true = []) := by
    intro opts
    simp only [generateTreeSummary]
    by_cases hempty :
        (buildBottomsUpEntries opts.node opts.totalWeight
          (opts.totalWeight * MIN_WEIGHT_THRESHOLD)).length = 0
        ∧ (buildTreeLines opts.node opts.totalWeight
            ((if opts.node.isRoot then opts.totalWeight
              else opts.node.getTotalWeight) * MIN_WEIGHT_THRESHOLD)
            "" true true).length = 0
    · rw [if_pos hempty]
      simp only [List.length_eq_zero] at hempty
      exact iff_of_true rfl hempty
    · rw [if_neg hempty]
      constructor
      · intro heq
        exact absurd (by simpa only [List.cons_append, List.nil_append] using heq)
          (joinLines_cons_ne_sentinel _ (by decide))
      · intro hboth
        exact absurd ⟨by rw [hboth.1]; rfl, by rw [hboth.2]; rfl⟩ hempty
  refine ⟨hmain, fun fv => ?_⟩
  refine (hmain ⟨emptyRootNode, 0, fv⟩).mpr ⟨?_, ?_⟩
  · norm_num [buildBottomsUpEntries, walkSubtree, walkSubtreeForEach, emptyRootNode,
      CallTreeNode.isRoot, CallTreeNode.children, List.mergeSort, List.filterMap]
  · norm_num [buildTreeLines, buildTreeLinesForEach, visibleChildren, emptyRootNode,
      CallTreeNode.isRoot, CallTreeNode.children, List.mergeSort]

theorem claim_C7_witness :
    generateTreeSummary ⟨emptyRootNode, 0, exFormatValue⟩ = "No data available" :=
  claim_C7.2 exFormatValue

/-- C8: `copyToClipboard` always resolves to a boolean — `true` when the
delivery call succeeds, `false` when it fails — and never propagates the
underlying failure to the caller. -/
theorem claim_C8 (writeText : String → Except String Unit) (text : String) :
    (∀ u, writeText text = .ok u → copyToClipboard writeText text = true)
    ∧ (∀ e, writeText text = .error e → copyToClipboard writeText text = false) := by
  constructor
  · intro u hu
    rw [copyToClipboard, hu]
  · intro e he
    rw [copyToClipboard, he]

theorem claim_C8_witness :
    copyToClipboard (fun _ => .ok ()) "report" = true
    ∧ copyToClipboard (fun _ => .error "denied") "report" = false :=
  ⟨(claim_C8 (fun _ => .ok ()) "report").1 () rfl,
   (claim_C8 (fun _ => .error "denied") "report").2 "denied" rfl⟩

/-- C9: because the aggregation adds every visited node's total weight onto
its frame's entry, a frame occurring at a node that is a descendant of
another node with the same frame aggregates to a total weight strictly above
the outermost occurrence's total, so its reported total percentage exceeds
100% of the subtree weight: in `root → f(total=80, self=50) → f(total=30,
self=30)` the single `f` entry carries total 110 (137.5%) against the
subtree total 80. -/
theorem claim_C9 :
    buildBottomsUpEntries recRoot 80 1
      = [{ frame := frameF, totalWeight := 110, selfWeight := 80,
           totalPercent := 275 / 2, selfPercent := 100 }]
    ∧ recOuter.getTotalWeight < 110
    ∧ (100 : ℚ) < 275 / 2 := by
  refine ⟨?_, by norm_num [recOuter, CallTreeNode.getTotalWeight], by norm_num⟩
  norm_num [buildBottomsUpEntries, walkSubtree, walkSubtreeForEach, setFrameWeight,
    recRoot, recOuter, recInner, CallTreeNode.isRoot, CallTreeNode.children,
    CallTreeNode.frame, CallTreeNode.getTotalWeight, CallTreeNode.getSelfWeight,
    List.mergeSort, List.filterMap, frameF, speedscopeRootFrame]

set_option maxRecDepth 40000 in
/-- C10: `generateAllProfilesSummary` never returns the `No data available`
sentinel: for every profile list — including the empty list and profiles with
empty sections — it emits the combined header block stating the profile count,
and per-profile delimiting sub-headers appear only when the list has more than
one profile (none for zero or one profile, one block per profile for two). -/
theorem claim_C10 :
    (∀ ps, generateAllProfilesSummary ps ≠ "No data available")
    ∧ (∀ ps, List.IsPrefix
        ["Performance Profile Summary", eqSep, "",
         "Total profiles: " ++ toString ps.length, ""]
        (allProfilesLines ps))
    ∧ generateAllProfilesSummary []
        = "Performance Profile Summary\n" ++ eqSep ++ "\n\nTotal profiles: 0\n"
    ∧ generateAllProfilesSummary [emptyInfo]
        = "Performance Profile Summary\n" ++ eqSep ++ "\n\nTotal profiles: 1\n"
    ∧ generateAllProfilesSummary [emptyInfo, emptyInfo]
        = "Performance Profile Summary\n" ++ eqSep ++ "\n\nTotal profiles: 2\n\n"
          ++ eqSep ++ "\nProfile 1/2: empty\nTotal: 0\n" ++ eqSep ++ "\n\n"
          ++ eqSep ++ "\nProfile 2/2: empty\nTotal: 0\n" ++ eqSep ++ "\n" := by
  have hbu : buildBottomsUpEntries emptyRootNode 0 (0 * MIN_WEIGHT_THRESHOLD) = [] := by
    norm_num [buildBottomsUpEntries, walkSubtree, walkSubtreeForEach, emptyRootNode,
      CallTreeNode.isRoot, CallTreeNode.children, List.mergeSort, List.filterMap]
  have hct : buildTreeLines emptyRootNode 0 (0 * MIN_WEIGHT_THRESHOLD) "" true true
      = [] := by
    norm_num [buildTreeLines, buildTreeLinesForEach, visibleChildren, emptyRootNode,
      CallTreeNode.isRoot, CallTreeNode.children, List.mergeSort]
  refine ⟨?_, ?_, ?_, ?_, ?_⟩
  · intro ps heq
    have heq' : joinLines ("Performance Profile Summary" :: eqSep :: "" ::
        ("Total profiles: " ++ toString ps.length) :: "" ::
        profilesLoop ps.length 0 ps) = "No data available" := by
      simpa only [generateAllProfilesSummary, allProfilesLines,
        List.cons_append, List.nil_append] using heq
    exact joinLines_cons_ne_sentinel _ (by decide) heq'
  · intro ps
    exact ⟨profilesLoop ps.length 0 ps, rfl⟩
  · rfl
  · simp only [generateAllProfilesSummary, allProfilesLines, profilesLoop,
      profileBlockLines, emptyInfo, Profile.getGroupedCalltreeRoot,
      Profile.getTotalNonIdleWeight, hbu, hct]
    rfl
  · simp only [generateAllProfilesSummary, allProfilesLines, profilesLoop,
      profileBlockLines, emptyInfo, Profile.getGroupedCalltreeRoot,
      Profile.getTotalNonIdleWeight, hbu, hct]
    rfl

theorem claim_C10_witness :
    generateAllProfilesSummary [] ≠ "No data available" :=
  claim_C10.1 []
